import Mathlib

/-!
Verification of the image-merger library (grid layout, paste engine,
known-size merger, nearest-neighbor resize) against its specification.

The Rust sources are shallowly embedded: an image is its dimensions plus a
total pixel-lookup function, the canvas-mutating paste loop becomes a
functional update, `u32` arithmetic is carried out in `Nat` (theorems carry
explicit no-overflow bounds where the quantified domain would otherwise
exceed `u32`), the `i32` running index `last_pasted_index` is an `Int`, and
the `f32` arithmetic of the resize routine is modelled exactly over `Rat`
with round-to-nearest-even at 24 bits of precision.
-/

namespace ImageMerger

/-- A point on a canvas (src/merger/core.rs `Point`). -/
structure Point where
  x : Nat
  y : Nat
deriving DecidableEq, Repr

/-- Padding between images on a canvas (src/merger/core.rs `Padding = Point`). -/
abbrev Padding := Point

/-- An image (src/core.rs `Image`): dimensions plus pixel contents.  The flat
subpixel buffer of the Rust `ImageBuffer` is abstracted to a total lookup
function returning whole pixels; `paste` and `resize_nearest_neighbor` only
ever move whole `CHANNEL_COUNT`-sized chunks, so the chunk (pixel) is the
unit of state. -/
structure Img (P : Type) where
  width : Nat
  height : Nat
  pix : Nat → Nat → P

/-- A freshly allocated image (`Image::new` / `ImageBuffer::new`): every
pixel is the zero pixel. -/
def Img.blank {P : Type} [Zero P] (w h : Nat) : Img P :=
  ⟨w, h, fun _ _ => 0⟩

/-- Two images are pixel-identical: same dimensions and equal pixels at
every in-range coordinate. -/
def Img.pixEq {P : Type} (a b : Img P) : Prop :=
  a.width = b.width ∧ a.height = b.height ∧
    ∀ x y, x < a.width → y < a.height → a.pix x y = b.pix x y

/-- The paste primitive (src/functions.rs `paste`): for every pixel
`(sx, sy)` of `top` the canvas pixel at `(loc.x + sx, loc.y + sy)` is
overwritten with `top.pix sx sy`; all other canvas pixels are untouched.
The parallel per-chunk loop of the source writes pairwise-distinct
destination coordinates, so its net effect is this functional update. -/
def paste {P : Type} (bottom : Img P) (top : Img P) (loc : Point) : Img P :=
  { bottom with
    pix := fun cx cy =>
      if loc.x ≤ cx ∧ cx < loc.x + top.width ∧ loc.y ≤ cy ∧ cy < loc.y + top.height then
        top.pix (cx - loc.x) (cy - loc.y)
      else bottom.pix cx cy }

/-- Modelled from the spec: the external pixel-buffer collaborator's
`ImageBuffer::from_raw` is not part of this repository.  Per spec §3 the
PixelBuffer invariant is a flat channel array of length exactly
`width*height*channels`, and per spec §7 a raw buffer whose size does not
match the required dimensions yields an absent result.  A pixel is the
`channels`-sized chunk of the flat array at `(y*width + x)*channels`. -/
def fromRawBuffer {α : Type} (channels width height : Nat) (container : List α) :
    Option (Img (List α)) :=
  if container.length = width * height * channels then
    some ⟨width, height, fun x y => (container.drop ((y * width + x) * channels)).take channels⟩
  else none

/-- `Image::new_from_raw` (src/core.rs): delegates to the collaborator's
`ImageBuffer::from_raw` and wraps the result. -/
def Image.new_from_raw {α : Type} (channels width height : Nat) (container : List α) :
    Option (Img (List α)) :=
  fromRawBuffer channels width height container

/-- The known-size merger state (src/merger/known.rs `KnownSizeMerger`). -/
structure KnownSizeMerger (P : Type) where
  canvas : Img P
  image_dimensions : Nat × Nat
  num_images : Nat
  images_per_row : Nat
  last_pasted_index : Int
  total_rows : Nat
  padding : Option Padding

namespace KnownSizeMerger

variable {P : Type}

/-- `images_per_row * total_rows`, the fixed slot capacity of the grid. -/
def capacity (m : KnownSizeMerger P) : Nat :=
  m.images_per_row * m.total_rows

/-- `KnownSizeMerger::additional_space` (src/merger/known.rs): remaining
free slots. -/
def additional_space (m : KnownSizeMerger P) : Nat :=
  m.images_per_row * m.total_rows - m.num_images

/-- `KnownSizeMerger::get_paste_coordinates_unchecked` (src/merger/known.rs):
the top-left canvas coordinate of grid slot `index`, including per-axis
padding. -/
def get_paste_coordinates_unchecked (m : KnownSizeMerger P) (index : Nat) : Nat × Nat :=
  let offset_x := index % m.images_per_row
  let offset_y := index / m.images_per_row
  let padding_x := (m.padding.map Point.x).getD 0 * offset_x
  let padding_y := (m.padding.map Point.y).getD 0 * offset_y
  (offset_x * m.image_dimensions.1 + padding_x, offset_y * m.image_dimensions.2 + padding_y)

/-- `KnownSizeMerger::get_next_paste_coordinates` (src/merger/known.rs):
`none` models the `panic!` when the canvas is full. -/
def get_next_paste_coordinates (m : KnownSizeMerger P) : Option (Nat × Nat) :=
  if m.additional_space = 0 then none
  else some (m.get_paste_coordinates_unchecked (m.last_pasted_index + 1).toNat)

/-- `KnownSizeMerger::new` (src/merger/known.rs): ceiling-division row
count, canvas allocated at the derived size, counters zeroed. -/
def new [Zero P] (image_dimensions : Nat × Nat) (images_per_row total_images : Nat)
    (padding : Option Padding) : KnownSizeMerger P :=
  let total_rows := (total_images + images_per_row - 1) / images_per_row
  let image_gaps_x := (images_per_row - 1) * (padding.map Point.x).getD 0
  let image_gaps_y := (total_rows - 1) * (padding.map Point.y).getD 0
  { canvas := Img.blank (image_dimensions.1 * images_per_row + image_gaps_x)
      (image_dimensions.2 * total_rows + image_gaps_y)
    image_dimensions := image_dimensions
    num_images := 0
    images_per_row := images_per_row
    last_pasted_index := -1
    total_rows := total_rows
    padding := padding }

/-- `KnownSizeMerger::new_from_raw` (src/merger/known.rs): builds the canvas
from a caller-supplied flat buffer via `Image::new_from_raw`. -/
def new_from_raw {α : Type} (channels : Nat) (image_dimensions : Nat × Nat)
    (images_per_row total_images : Nat) (padding : Option Padding) (container : List α) :
    Option (KnownSizeMerger (List α)) :=
  let total_rows := (total_images + images_per_row - 1) / images_per_row
  let image_gaps_x := (images_per_row - 1) * (padding.map Point.x).getD 0
  let image_gaps_y := (total_rows - 1) * (padding.map Point.y).getD 0
  (Image.new_from_raw channels (image_dimensions.1 * images_per_row + image_gaps_x)
      (image_dimensions.2 * total_rows + image_gaps_y) container).map fun canvas =>
    { canvas := canvas
      image_dimensions := image_dimensions
      num_images := 0
      images_per_row := images_per_row
      last_pasted_index := -1
      total_rows := total_rows
      padding := padding }

/-- `Merger::push` for `KnownSizeMerger` (src/merger/known.rs): `none`
models the capacity `panic!`; otherwise pastes at the next slot and
increments both counters. -/
def push (m : KnownSizeMerger P) (image : Img P) : Option (KnownSizeMerger P) :=
  match m.get_next_paste_coordinates with
  | none => none
  | some (x, y) =>
      some { m with
        canvas := paste m.canvas image ⟨x, y⟩
        last_pasted_index := m.last_pasted_index + 1
        num_images := m.num_images + 1 }

/-- N sequential `push` calls, propagating the capacity panic. -/
def pushList (m : KnownSizeMerger P) : List (Img P) → Option (KnownSizeMerger P)
  | [] => some m
  | image :: rest => (m.push image).bind fun m1 => m1.pushList rest

/-- The paste loop of `Merger::bulk_push` (src/merger/known.rs): image at
batch position `i` is pasted at slot `(i + last_pasted_index + 1)`.  The
source performs these pastes in parallel over pairwise-disjoint grid cells,
so the net effect is the in-order sequence of pastes; `index` is the batch
position of the list head. -/
def bulk_pastes (m : KnownSizeMerger P) : Img P → List (Img P) → Nat → Img P
  | c, [], _ => c
  | c, image :: rest, index =>
      let offset_index := ((index : Int) + m.last_pasted_index + 1).toNat
      let xy := m.get_paste_coordinates_unchecked offset_index
      bulk_pastes m (paste c image ⟨xy.1, xy.2⟩) rest (index + 1)

/-- `Merger::bulk_push` for `KnownSizeMerger` (src/merger/known.rs): `none`
models the upfront capacity `panic!`; counters are updated once after all
pastes. -/
def bulk_push (m : KnownSizeMerger P) (images : List (Img P)) :
    Option (KnownSizeMerger P) :=
  if m.additional_space < images.length then none
  else
    some { m with
      canvas := m.bulk_pastes m.canvas images 0
      last_pasted_index := m.last_pasted_index + images.length
      num_images := m.num_images + images.length }

/-- `KnownSizeMerger::remove_image_raw` (src/merger/known.rs): the
replacement coordinates are computed WITHOUT the padding term used by
`get_paste_coordinates_unchecked`.  The caller-supplied raw container has
already been turned into `black`; `none` models the size-mismatch failure
of `Image::new_from_raw` on the container. -/
def remove_image_raw (m : KnownSizeMerger P) (index : Nat) (black : Img P) :
    Option (KnownSizeMerger P) :=
  let offset_x := index % m.images_per_row
  let offset_y := index / m.images_per_row
  let x := offset_x * m.image_dimensions.1
  let y := offset_y * m.image_dimensions.2
  if black.width = m.image_dimensions.1 ∧ black.height = m.image_dimensions.2 then
    some { m with canvas := paste m.canvas black ⟨x, y⟩ }
  else none

/-- `KnownSizeMerger::remove_image` (src/merger/known.rs, `Vec` impl):
builds a zero-valued cell-sized image, calls `remove_image_raw` (whose
`unwrap` always succeeds here), then pastes a second zero-valued image at
the same padding-free coordinates. -/
def remove_image [Zero P] (m : KnownSizeMerger P) (index : Nat) : KnownSizeMerger P :=
  let black : Img P := Img.blank m.image_dimensions.1 m.image_dimensions.2
  let m1 := (m.remove_image_raw index black).getD m
  let offset_x := index % m.images_per_row
  let offset_y := index / m.images_per_row
  let x := offset_x * m.image_dimensions.1
  let y := offset_y * m.image_dimensions.2
  { m1 with canvas := paste m1.canvas black ⟨x, y⟩ }

/-- Membership of a canvas coordinate in the `cell_w × cell_h` rectangle
anchored at the slot coordinate `get_paste_coordinates_unchecked index`. -/
def cellRegion (m : KnownSizeMerger P) (index : Nat) (q : Nat × Nat) : Prop :=
  let a := m.get_paste_coordinates_unchecked index
  a.1 ≤ q.1 ∧ q.1 < a.1 + m.image_dimensions.1 ∧
    a.2 ≤ q.2 ∧ q.2 < a.2 + m.image_dimensions.2

instance (m : KnownSizeMerger P) (index : Nat) (q : Nat × Nat) :
    Decidable (m.cellRegion index q) := by
  unfold cellRegion
  infer_instance

/-- Membership of a canvas coordinate in the `cell_w × cell_h` rectangle
anchored at the padding-free coordinates used by `remove_image` /
`remove_image_raw`. -/
def removeRegion (m : KnownSizeMerger P) (index : Nat) (q : Nat × Nat) : Prop :=
  let x := (index % m.images_per_row) * m.image_dimensions.1
  let y := (index / m.images_per_row) * m.image_dimensions.2
  x ≤ q.1 ∧ q.1 < x + m.image_dimensions.1 ∧
    y ≤ q.2 ∧ q.2 < y + m.image_dimensions.2

instance (m : KnownSizeMerger P) (index : Nat) (q : Nat × Nat) :
    Decidable (m.removeRegion index q) := by
  unfold removeRegion
  infer_instance

/-- The counter invariant of spec §3: the image count never exceeds
capacity and the running index trails it by one. -/
def Inv (m : KnownSizeMerger P) : Prop :=
  m.num_images ≤ m.capacity ∧ m.last_pasted_index = (m.num_images : Int) - 1

instance (m : KnownSizeMerger P) : Decidable m.Inv := by
  unfold Inv
  infer_instance

/-- The merger states reachable from a fresh construction by any sequence
of `push`, `bulk_push` and `remove_image` calls.  Construction requires at
least one column and one image (the source divides by `images_per_row` and
computes `total_rows - 1` in `u32`, so other parameters panic). -/
inductive Reachable [Zero P] : KnownSizeMerger P → Prop
  | construct (dims : ℕ × ℕ) (cols n : ℕ) (pad : Option Padding)
      (hcols : 1 ≤ cols) (hn : 1 ≤ n) :
      Reachable (KnownSizeMerger.new dims cols n pad)
  | push_step {m m' : KnownSizeMerger P} {img : Img P} :
      Reachable m → m.push img = some m' → Reachable m'
  | bulk_step {m m' : KnownSizeMerger P} {imgs : List (Img P)} :
      Reachable m → m.bulk_push imgs = some m' → Reachable m'
  | remove_step {m : KnownSizeMerger P} (i : ℕ) :
      Reachable m → Reachable (m.remove_image i)

end KnownSizeMerger

/-- A concrete test image whose every pixel holds the constant `v`. -/
def constImg (w h v : ℕ) : Img ℕ :=
  ⟨w, h, fun _ _ => v⟩

/-- A concrete test image whose pixel at `(x, y)` is its column index `x`. -/
def coordImg (w h : ℕ) : Img ℕ :=
  ⟨w, h, fun x _ => x⟩

/-! Exact model of the IEEE-754 binary32 (`f32`) arithmetic used by
`resize_nearest_neighbor` (src/functions.rs).  Every value arising there is
a finite non-negative float, far inside the normal range, so a float is
represented by the rational it denotes and each operation is the exact
rational result rounded to 24 significant bits, round-to-nearest,
ties-to-even. -/

/-- Round-to-nearest, ties-to-even division of naturals: the integer
nearest to `a / b` (for `b ≠ 0`), with ties resolved to the even
neighbour. -/
def rdivNe (a b : ℕ) : ℕ :=
  let f := a / b
  let r := a % b
  if 2 * r < b then f
  else if b < 2 * r then f + 1
  else if f % 2 = 0 then f else f + 1

/-- Fuel-driven base-2 logarithm, structurally recursive so that it
evaluates inside the kernel; agrees with `Nat.log2` whenever `n < 2^fuel`. -/
def log2fuel : ℕ → ℕ → ℕ
  | 0, _ => 0
  | fuel + 1, n => if 2 ≤ n then log2fuel fuel (n / 2) + 1 else 0

/-- Base-2 logarithm with enough fuel for every quantity reached by the
resize routine (all are far below `2^128`). -/
def nlog2 (n : ℕ) : ℕ :=
  log2fuel 128 n

/-- Whether the positive rational `n / d` is strictly below `2 ^ e`, for an
integer exponent `e` of either sign, decided by integer comparison. -/
def ltPow2 (n d : ℕ) (e : ℤ) : Bool :=
  if 0 ≤ e then n < 2 ^ e.toNat * d else n * 2 ^ (-e).toNat < d

/-- The binary exponent of the positive rational `n / d`: the unique `e`
with `2^e ≤ n/d < 2^(e+1)` (from `nlog2` of numerator and denominator,
with a one-step correction). -/
def qexpN (n d : ℕ) : ℤ :=
  let e0 : ℤ := (nlog2 n : ℤ) - (nlog2 d : ℤ)
  if ltPow2 n d e0 then e0 - 1 else e0

/-- Round the positive rational `n / d` to the nearest binary32 value
(round-to-nearest, ties-to-even, 24-bit significand): the significand is
the round-to-nearest-even integer value of `(n/d) / 2^(e-23)` and the
result is that significand scaled back by `2^(e-23)`.  All quantities
reached by the resize routine are far inside the normal finite range, so
overflow and subnormal rounding never occur. -/
def roundPos (n d : ℕ) : ℚ :=
  let s : ℤ := 23 - qexpN n d
  if 0 ≤ s then mkRat (rdivNe (n * 2 ^ s.toNat) d) (2 ^ s.toNat)
  else ((rdivNe n (d * 2 ^ (-s).toNat) * 2 ^ (-s).toNat : ℕ) : ℚ)

/-- Round a non-negative rational to the nearest binary32 value. -/
def roundF32 (q : ℚ) : ℚ :=
  if q ≤ 0 then 0 else roundPos q.num.toNat q.den

/-- A `u32` converted to `f32` (Rust `as f32`): round to nearest. -/
def toF32 (n : ℕ) : ℚ :=
  roundF32 (n : ℚ)

/-- `f32` division of non-negative finite values: exact quotient, rounded.
(The `b = 0` case of the source produces an infinity or NaN; it is only
reachable for a zero target dimension, where no destination pixel exists,
and is mapped to `0` here.) -/
def divF32 (a b : ℚ) : ℚ :=
  if a ≤ 0 ∨ b ≤ 0 then 0 else roundPos (a.num.toNat * b.den) (a.den * b.num.toNat)

/-- `f32` multiplication of non-negative finite values: exact product,
rounded. -/
def mulF32 (a b : ℚ) : ℚ :=
  if a ≤ 0 ∨ b ≤ 0 then 0 else roundPos (a.num.toNat * b.num.toNat) (a.den * b.den)

/-- A non-negative finite `f32` cast to `u32` (Rust `as u32`): truncate
toward zero, saturating at `u32::MAX` above and at `0` below. -/
def truncU32 (q : ℚ) : ℕ :=
  min (q.num.toNat / q.den) (2 ^ 32 - 1)

/-- `resize_nearest_neighbor` (src/functions.rs): the destination pixel at
`(i, j)` is the source pixel at the coordinate obtained by the `f32`
computation `(i as f32 * (width as f32 / nwidth as f32)) as u32` (and
likewise for `j`). -/
def resize_nearest_neighbor {P : Type} (image : Img P) (nwidth nheight : Nat) : Img P :=
  let width_scale := divF32 (toF32 image.width) (toF32 nwidth)
  let height_scale := divF32 (toF32 image.height) (toF32 nheight)
  ⟨nwidth, nheight, fun i j =>
    image.pix (truncU32 (mulF32 (toF32 i) width_scale))
      (truncU32 (mulF32 (toF32 j) height_scale))⟩

/-! Theorems. -/

namespace KnownSizeMerger

variable {P : Type}

/-- The slot coordinate function in closed linear form: each axis offset is
the grid offset times the cell-plus-padding stride. -/
theorem coords_linear (m : KnownSizeMerger P) (i : ℕ) :
    m.get_paste_coordinates_unchecked i =
      ((i % m.images_per_row) * (m.image_dimensions.1 + (m.padding.map Point.x).getD 0),
        (i / m.images_per_row) * (m.image_dimensions.2 + (m.padding.map Point.y).getD 0)) := by
  simp only [get_paste_coordinates_unchecked, Prod.mk.injEq]
  constructor <;> ring

/-- Two width-`w` intervals anchored at distinct multiples of a stride
`s ≥ w` share no point. -/
theorem strided_intervals_disjoint {a b w s t : ℕ} (hw : w ≤ s) (hab : a ≠ b) :
    ¬(a * s ≤ t ∧ t < a * s + w ∧ b * s ≤ t ∧ t < b * s + w) := by
  rintro ⟨hat, hat2, hbt, hbt2⟩
  rcases Nat.lt_or_ge a b with h | h
  · have h1 : (a + 1) * s ≤ b * s := Nat.mul_le_mul_right s h
    have h2 : t < (a + 1) * s := by
      calc t < a * s + w := hat2
        _ ≤ a * s + s := by omega
        _ = (a + 1) * s := by ring
    omega
  · rcases Nat.lt_or_ge b a with h3 | h3
    · have h1 : (b + 1) * s ≤ a * s := Nat.mul_le_mul_right s h3
      have h2 : t < (b + 1) * s := by
        calc t < b * s + w := hbt2
          _ ≤ b * s + s := by omega
          _ = (b + 1) * s := by ring
      omega
    · exact hab (Nat.le_antisymm h3 h)

/-- C1: for every merger configuration (cell dimensions, `images_per_row ≥ 1`,
any row count and padding) whose derived canvas dimensions fit in `u32`, and
every pair of distinct slot indices `i ≠ j` below `images_per_row * total_rows`,
the `cell_w × cell_h` rectangles anchored at `get_paste_coordinates_unchecked i`
and `get_paste_coordinates_unchecked j` are disjoint: no canvas coordinate lies
in both. -/
theorem C1_grid_cells_disjoint (m : KnownSizeMerger P) (i j : ℕ) (q : ℕ × ℕ)
    (hcols : 1 ≤ m.images_per_row)
    (hi : i < m.capacity) (hj : j < m.capacity) (hij : i ≠ j)
    (hWfit : m.images_per_row * m.image_dimensions.1 +
      (m.images_per_row - 1) * (m.padding.map Point.x).getD 0 < 2 ^ 32)
    (hHfit : m.total_rows * m.image_dimensions.2 +
      (m.total_rows - 1) * (m.padding.map Point.y).getD 0 < 2 ^ 32) :
    ¬(m.cellRegion i q ∧ m.cellRegion j q) := by
  rintro ⟨hqi, hqj⟩
  have hdec : i % m.images_per_row ≠ j % m.images_per_row ∨
      i / m.images_per_row ≠ j / m.images_per_row := by
    by_contra h
    push_neg at h
    refine hij ?_
    conv_lhs => rw [← Nat.div_add_mod i m.images_per_row]
    conv_rhs => rw [← Nat.div_add_mod j m.images_per_row]
    rw [h.1, h.2]
  simp only [cellRegion, coords_linear] at hqi hqj
  rcases hdec with h | h
  · exact strided_intervals_disjoint (Nat.le_add_right _ _) h
      ⟨hqi.1, hqi.2.1, hqj.1, hqj.2.1⟩
  · exact strided_intervals_disjoint (Nat.le_add_right _ _) h
      ⟨hqi.2.2.1, hqi.2.2.2, hqj.2.2.1, hqj.2.2.2⟩

/-- Witness for C1 at a concrete configuration: a 2×2 grid of 1×1 cells
with padding, slots 0 and 1, probed at the origin. -/
theorem C1_grid_cells_disjoint_witness :
    (1 ≤ (KnownSizeMerger.new (P := ℕ) (1, 1) 2 4 (some ⟨1, 1⟩)).images_per_row) ∧
      ¬((KnownSizeMerger.new (P := ℕ) (1, 1) 2 4 (some ⟨1, 1⟩)).cellRegion 0 (0, 0) ∧
        (KnownSizeMerger.new (P := ℕ) (1, 1) 2 4 (some ⟨1, 1⟩)).cellRegion 1 (0, 0)) :=
  ⟨by decide,
    C1_grid_cells_disjoint (KnownSizeMerger.new (1, 1) 2 4 (some ⟨1, 1⟩)) 0 1 (0, 0)
      (by decide) (by decide) (by decide) (by decide) (by decide) (by decide)⟩

/-- C5: constructing a merger with `cols ≥ 1` images per row and total image
count `n ≥ 1` yields a row count equal to the ceiling of `n / cols`
(characterised by `cols*(rows-1) < n ≤ cols*rows`) and a canvas of exactly
`cols*cell_w + (cols-1)*pad_x` by `rows*cell_h + (rows-1)*pad_y` pixels. -/
theorem C5_construction_geometry [Zero P] (cw ch cols n : ℕ) (pad : Option Padding)
    (hcols : 1 ≤ cols) (hn : 1 ≤ n) :
    cols * ((KnownSizeMerger.new (P := P) (cw, ch) cols n pad).total_rows - 1) < n ∧
      n ≤ cols * (KnownSizeMerger.new (P := P) (cw, ch) cols n pad).total_rows ∧
      (KnownSizeMerger.new (P := P) (cw, ch) cols n pad).canvas.width =
        cols * cw + (cols - 1) * (pad.map Point.x).getD 0 ∧
      (KnownSizeMerger.new (P := P) (cw, ch) cols n pad).canvas.height =
        (KnownSizeMerger.new (P := P) (cw, ch) cols n pad).total_rows * ch +
          ((KnownSizeMerger.new (P := P) (cw, ch) cols n pad).total_rows - 1) *
            (pad.map Point.y).getD 0 := by
  have hrows : (KnownSizeMerger.new (P := P) (cw, ch) cols n pad).total_rows =
      (n + cols - 1) / cols := rfl
  have hdm := Nat.div_add_mod (n + cols - 1) cols
  have hmlt : (n + cols - 1) % cols < cols := Nat.mod_lt _ (by omega)
  have hsub := Nat.mul_sub_one cols ((n + cols - 1) / cols)
  refine ⟨?_, ?_, ?_, ?_⟩
  · rw [hrows]
    omega
  · rw [hrows]
    omega
  · show cw * cols + (cols - 1) * (pad.map Point.x).getD 0 =
      cols * cw + (cols - 1) * (pad.map Point.x).getD 0
    ring
  · show ch * ((n + cols - 1) / cols) + (((n + cols - 1) / cols) - 1) * (pad.map Point.y).getD 0 =
      ((n + cols - 1) / cols) * ch + (((n + cols - 1) / cols) - 1) * (pad.map Point.y).getD 0
    ring

/-- Witness for C5: the spec example, 100×100 cells, 10 per row, 100 images,
10-pixel padding on both axes, gives ten rows and a 1090×1090 canvas. -/
theorem C5_construction_geometry_witness :
    (KnownSizeMerger.new (P := ℕ) (100, 100) 10 100 (some ⟨10, 10⟩)).total_rows = 10 ∧
      (KnownSizeMerger.new (P := ℕ) (100, 100) 10 100 (some ⟨10, 10⟩)).canvas.width = 1090 ∧
      (KnownSizeMerger.new (P := ℕ) (100, 100) 10 100 (some ⟨10, 10⟩)).canvas.height = 1090 := by
  have h := C5_construction_geometry (P := ℕ) 100 100 10 100 (some ⟨10, 10⟩)
    (by decide) (by decide)
  refine ⟨by omega, ?_, ?_⟩
  · rw [h.2.2.1]
    decide
  · rw [h.2.2.2]
    have : (KnownSizeMerger.new (P := ℕ) (100, 100) 10 100 (some ⟨10, 10⟩)).total_rows = 10 := by
      omega
    rw [this]
    decide

/-- C3: with the counter invariant in force, `push` fails (panics) exactly
when the merger is full: if `num_images = capacity` it returns `none`, and
if `num_images < capacity` it succeeds, pasting at the slot derived from
`last_pasted_index + 1` and incrementing both counters by one. -/
theorem C3_push_panics_iff_full (m : KnownSizeMerger P) (img : Img P) (hinv : m.Inv) :
    (m.num_images = m.capacity → m.push img = none) ∧
      (m.num_images < m.capacity →
        m.push img = some
          { m with
            canvas := paste m.canvas img
              ⟨(m.get_paste_coordinates_unchecked (m.last_pasted_index + 1).toNat).1,
                (m.get_paste_coordinates_unchecked (m.last_pasted_index + 1).toNat).2⟩
            last_pasted_index := m.last_pasted_index + 1
            num_images := m.num_images + 1 }) := by
  constructor
  · intro hfull
    have hspace : m.additional_space = 0 := Nat.sub_eq_zero_of_le hfull.symm.le
    simp [push, get_next_paste_coordinates, hspace]
  · intro hlt
    have hspace : m.additional_space ≠ 0 := Nat.sub_ne_zero_of_lt hlt
    simp [push, get_next_paste_coordinates, hspace]

/-- Witness for C3: the spec example, a grid with one 1×1 slot accepts
exactly one push and fails on the second. -/
theorem C3_push_panics_iff_full_witness :
    ((KnownSizeMerger.new (P := ℕ) (1, 1) 1 1 none).push (Img.blank 1 1)).isSome = true ∧
      ((KnownSizeMerger.new (P := ℕ) (1, 1) 1 1 none).push (Img.blank 1 1)).bind
        (fun m1 => m1.push (Img.blank 1 1)) = none := by
  have h2 := (C3_push_panics_iff_full (KnownSizeMerger.new (P := ℕ) (1, 1) 1 1 none)
    (Img.blank 1 1) (by decide)).2 (by decide)
  rw [h2]
  refine ⟨rfl, ?_⟩
  rw [Option.some_bind]
  exact (C3_push_panics_iff_full _ (Img.blank 1 1) (by decide)).1 (by decide)

/-- Counters and geometry untouched by `remove_image`: the image count. -/
theorem remove_image_num [Zero P] (m : KnownSizeMerger P) (i : ℕ) :
    (m.remove_image i).num_images = m.num_images := by
  simp [remove_image, remove_image_raw, Img.blank]

/-- Counters and geometry untouched by `remove_image`: the running index. -/
theorem remove_image_last [Zero P] (m : KnownSizeMerger P) (i : ℕ) :
    (m.remove_image i).last_pasted_index = m.last_pasted_index := by
  simp [remove_image, remove_image_raw, Img.blank]

/-- Counters and geometry untouched by `remove_image`: the column count. -/
theorem remove_image_ipr [Zero P] (m : KnownSizeMerger P) (i : ℕ) :
    (m.remove_image i).images_per_row = m.images_per_row := by
  simp [remove_image, remove_image_raw, Img.blank]

/-- Counters and geometry untouched by `remove_image`: the row count. -/
theorem remove_image_rows [Zero P] (m : KnownSizeMerger P) (i : ℕ) :
    (m.remove_image i).total_rows = m.total_rows := by
  simp [remove_image, remove_image_raw, Img.blank]

/-- The counter effect of a successful `push`. -/
theorem push_counters (m m' : KnownSizeMerger P) (img : Img P)
    (h : m.push img = some m') :
    m'.num_images = m.num_images + 1 ∧
      m'.last_pasted_index = m.last_pasted_index + 1 ∧
      m'.images_per_row = m.images_per_row ∧ m'.total_rows = m.total_rows ∧
      m.additional_space ≠ 0 := by
  by_cases hspace : m.additional_space = 0
  · simp [push, get_next_paste_coordinates, hspace] at h
  · simp only [push, get_next_paste_coordinates, hspace, if_neg] at h
    simp only [ite_false] at h
    cases h
    simp [hspace]

/-- The counter effect of a successful `bulk_push`. -/
theorem bulk_push_counters (m m' : KnownSizeMerger P) (imgs : List (Img P))
    (h : m.bulk_push imgs = some m') :
    m'.num_images = m.num_images + imgs.length ∧
      m'.last_pasted_index = m.last_pasted_index + imgs.length ∧
      m'.images_per_row = m.images_per_row ∧ m'.total_rows = m.total_rows ∧
      imgs.length ≤ m.additional_space := by
  by_cases hspace : m.additional_space < imgs.length
  · simp [bulk_push, hspace] at h
  · simp only [bulk_push, hspace, ite_false] at h
    cases h
    simp
    omega

/-- C9: every merger state reachable from a fresh construction satisfies
`num_images ≤ capacity` and `last_pasted_index = num_images - 1`; a
successful `push` increases `num_images` and `last_pasted_index` by one, a
successful `bulk_push` by the batch length, and `remove_image` changes
neither counter. -/
theorem C9_counters_invariant [Zero P] :
    (∀ m : KnownSizeMerger P, Reachable m → m.Inv) ∧
      (∀ (m m' : KnownSizeMerger P) (img : Img P), m.push img = some m' →
        m'.num_images = m.num_images + 1 ∧
          m'.last_pasted_index = m.last_pasted_index + 1) ∧
      (∀ (m m' : KnownSizeMerger P) (imgs : List (Img P)), m.bulk_push imgs = some m' →
        m'.num_images = m.num_images + imgs.length ∧
          m'.last_pasted_index = m.last_pasted_index + imgs.length) ∧
      (∀ (m : KnownSizeMerger P) (i : ℕ),
        (m.remove_image i).num_images = m.num_images ∧
          (m.remove_image i).last_pasted_index = m.last_pasted_index) := by
  refine ⟨?_, ?_, ?_, ?_⟩
  · intro m hm
    induction hm with
    | construct dims cols n pad hcols hn =>
        refine ⟨?_, ?_⟩
        · simp [KnownSizeMerger.new, capacity]
        · simp [KnownSizeMerger.new]
    | push_step hr hp ih =>
        obtain ⟨h1, h2, h3, h4, h5⟩ := push_counters _ _ _ hp
        simp only [additional_space] at h5
        refine ⟨?_, ?_⟩
        · rw [h1]
          simp only [capacity, h3, h4]
          have hlt := Nat.lt_of_sub_ne_zero h5
          omega
        · rw [h2, h1, ih.2]
          push_cast
          ring
    | bulk_step hr hp ih =>
        obtain ⟨h1, h2, h3, h4, h5⟩ := bulk_push_counters _ _ _ hp
        simp only [additional_space] at h5
        have hnum := ih.1
        simp only [capacity] at hnum
        refine ⟨?_, ?_⟩
        · rw [h1]
          simp only [capacity, h3, h4]
          have hle : _ + _ ≤ _ := Nat.add_le_of_le_sub hnum h5
          omega
        · rw [h2, h1, ih.2]
          push_cast
          ring
    | remove_step i hr ih =>
        have hnum := ih.1
        simp only [capacity] at hnum
        refine ⟨?_, ?_⟩
        · simp only [capacity, remove_image_num, remove_image_ipr, remove_image_rows]
          exact hnum
        · rw [remove_image_last, remove_image_num, ih.2]
  · intro m m' img h
    exact ⟨(push_counters m m' img h).1, (push_counters m m' img h).2.1⟩
  · intro m m' imgs h
    exact ⟨(bulk_push_counters m m' imgs h).1, (bulk_push_counters m m' imgs h).2.1⟩
  · intro m i
    exact ⟨remove_image_num m i, remove_image_last m i⟩

/-- Witness for C9: the invariant holds at a freshly constructed 1×1 merger,
and `remove_image` leaves its counters at zero and minus one. -/
theorem C9_counters_invariant_witness :
    (KnownSizeMerger.new (P := ℕ) (1, 1) 1 1 none).Inv ∧
      ((KnownSizeMerger.new (P := ℕ) (1, 1) 1 1 none).remove_image 0).num_images = 0 ∧
      ((KnownSizeMerger.new (P := ℕ) (1, 1) 1 1 none).remove_image 0).last_pasted_index = -1 := by
  refine ⟨(C9_counters_invariant (P := ℕ)).1 _
    (Reachable.construct (1, 1) 1 1 none (by decide) (by decide)), ?_, ?_⟩
  · rw [((C9_counters_invariant (P := ℕ)).2.2.2 (KnownSizeMerger.new (1, 1) 1 1 none) 0).1]
    rfl
  · rw [((C9_counters_invariant (P := ℕ)).2.2.2 (KnownSizeMerger.new (1, 1) 1 1 none) 0).2]
    decide

/-- The slot coordinate function reads only the geometry fields. -/
theorem coords_congr (m m' : KnownSizeMerger P)
    (h1 : m'.images_per_row = m.images_per_row)
    (h2 : m'.image_dimensions = m.image_dimensions)
    (h3 : m'.padding = m.padding) (i : ℕ) :
    m'.get_paste_coordinates_unchecked i = m.get_paste_coordinates_unchecked i := by
  simp [get_paste_coordinates_unchecked, h1, h2, h3]

/-- Shifting the batch start of the bulk paste loop: pasting a batch from
position `k + 1` against a running index is pasting it from position `k`
against the incremented running index, as long as the geometry agrees. -/
theorem bulk_pastes_shift (m m' : KnownSizeMerger P)
    (h1 : m'.images_per_row = m.images_per_row)
    (h2 : m'.image_dimensions = m.image_dimensions)
    (h3 : m'.padding = m.padding)
    (hlast : m'.last_pasted_index = m.last_pasted_index + 1) :
    ∀ (imgs : List (Img P)) (c : Img P) (k : ℕ),
      m.bulk_pastes c imgs (k + 1) = m'.bulk_pastes c imgs k := by
  intro imgs
  induction imgs with
  | nil => intro c k; rfl
  | cons img rest ih =>
      intro c k
      simp only [bulk_pastes]
      rw [coords_congr m m' h1 h2 h3, hlast]
      have harg : ((k + 1 : ℕ) : ℤ) + m.last_pasted_index + 1 =
          (k : ℤ) + (m.last_pasted_index + 1) + 1 := by
        push_cast
        ring
      rw [harg]
      exact ih _ _

/-- C2: with the counter invariant in force, a single `bulk_push` of a
batch that fits in the remaining capacity produces exactly the same merger
state — canvas contents, `num_images` and `last_pasted_index` — as the same
images pushed one at a time in the same order. -/
theorem C2_bulk_push_eq_sequential_pushes (m : KnownSizeMerger P) (imgs : List (Img P))
    (hinv : m.Inv)
    (hdims : ∀ img ∈ imgs,
      img.width = m.image_dimensions.1 ∧ img.height = m.image_dimensions.2)
    (hlen : imgs.length ≤ m.additional_space) :
    m.bulk_push imgs = m.pushList imgs := by
  induction imgs generalizing m with
  | nil =>
      simp [bulk_push, pushList, bulk_pastes]
  | cons img rest ih =>
      have hspace1 : m.additional_space ≠ 0 := by
        intro h0
        rw [h0] at hlen
        simp at hlen
      have hpush : m.push img = some
          { m with
            canvas := paste m.canvas img
              ⟨(m.get_paste_coordinates_unchecked (m.last_pasted_index + 1).toNat).1,
                (m.get_paste_coordinates_unchecked (m.last_pasted_index + 1).toNat).2⟩
            last_pasted_index := m.last_pasted_index + 1
            num_images := m.num_images + 1 } := by
        simp [push, get_next_paste_coordinates, hspace1]
      set m1 : KnownSizeMerger P :=
        { m with
          canvas := paste m.canvas img
            ⟨(m.get_paste_coordinates_unchecked (m.last_pasted_index + 1).toNat).1,
              (m.get_paste_coordinates_unchecked (m.last_pasted_index + 1).toNat).2⟩
          last_pasted_index := m.last_pasted_index + 1
          num_images := m.num_images + 1 } with hm1
      have hinv1 : m1.Inv := by
        refine ⟨?_, ?_⟩
        · show m.num_images + 1 ≤ m1.capacity
          have hlt := Nat.lt_of_sub_ne_zero hspace1
          simpa [hm1, capacity] using hlt
        · show m.last_pasted_index + 1 = ((m.num_images + 1 : ℕ) : ℤ) - 1
          rw [hinv.2]
          push_cast
          ring
      have hdims1 : ∀ i ∈ rest,
          i.width = m1.image_dimensions.1 ∧ i.height = m1.image_dimensions.2 :=
        fun i hi => hdims i (List.mem_cons_of_mem _ hi)
      have hlen1 : rest.length ≤ m1.additional_space := by
        have has : m1.additional_space =
            m.images_per_row * m.total_rows - (m.num_images + 1) := rfl
        rw [has]
        simp only [additional_space, List.length_cons] at hlen
        omega
      have hrhs : m.pushList (img :: rest) = m1.pushList rest := by
        simp [pushList, hpush]
      rw [hrhs, ← ih m1 hinv1 hdims1 hlen1]
      have hspaceL : ¬(m.additional_space < (img :: rest).length) := Nat.not_lt.mpr hlen
      have hspaceR : ¬(m1.additional_space < rest.length) := Nat.not_lt.mpr hlen1
      simp only [bulk_push, hspaceL, hspaceR, ite_false, if_neg, not_false_iff]
      refine congrArg some ?_
      have hcanvas : m.bulk_pastes m.canvas (img :: rest) 0 =
          m1.bulk_pastes m1.canvas rest 0 := by
        simp only [bulk_pastes]
        have harg0 : ((0 : ℕ) : ℤ) + m.last_pasted_index + 1 = m.last_pasted_index + 1 := by
          push_cast
          ring
        rw [harg0]
        exact bulk_pastes_shift m m1 rfl rfl rfl rfl rest _ 0
      rw [hcanvas]
      show ({ canvas := m1.bulk_pastes m1.canvas rest 0
              image_dimensions := m.image_dimensions
              num_images := m.num_images + (rest.length + 1)
              images_per_row := m.images_per_row
              last_pasted_index := m.last_pasted_index + ((rest.length + 1 : ℕ) : ℤ)
              total_rows := m.total_rows
              padding := m.padding } : KnownSizeMerger P) =
          { canvas := m1.bulk_pastes m1.canvas rest 0
            image_dimensions := m.image_dimensions
            num_images := m.num_images + 1 + rest.length
            images_per_row := m.images_per_row
            last_pasted_index := m.last_pasted_index + 1 + (rest.length : ℤ)
            total_rows := m.total_rows
            padding := m.padding }
      have e1 : m.num_images + (rest.length + 1) = m.num_images + 1 + rest.length := by
        ring
      have e2 : m.last_pasted_index + ((rest.length + 1 : ℕ) : ℤ) =
          m.last_pasted_index + 1 + (rest.length : ℤ) := by
        push_cast
        ring
      rw [e1, e2]

/-- Witness for C2: a concrete 2-slot merger, a two-image batch bulk-pushed
equals the two images pushed sequentially. -/
theorem C2_bulk_push_eq_sequential_pushes_witness :
    (KnownSizeMerger.new (P := ℕ) (1, 1) 2 2 none).bulk_push
        [Img.blank 1 1, Img.blank 1 1] =
      (KnownSizeMerger.new (P := ℕ) (1, 1) 2 2 none).pushList
        [Img.blank 1 1, Img.blank 1 1] := by
  refine C2_bulk_push_eq_sequential_pushes _ _ (by decide) ?_ (by decide)
  intro img himg
  have heq : img = Img.blank 1 1 := by
    simpa using himg
  subst heq
  exact ⟨rfl, rfl⟩

/-- C4: evaluation of the code at the failing input.  In a merger of 1×1
cells, two columns and horizontal padding 1, slot 1's cell is the single
pixel at `get_paste_coordinates_unchecked 1 = (2, 0)`; after two pushes of
the constant-7 image, `remove_image 1` leaves that pixel at 7 instead of
zeroing it — the removal coordinates are computed without the padding term,
so the blank lands on the padding column at `(1, 0)` instead. -/
theorem C4_remove_image_ignores_padding :
    (KnownSizeMerger.new (P := ℕ) (1, 1) 2 2 (some ⟨1, 0⟩)).get_paste_coordinates_unchecked 1
        = (2, 0) ∧
      ((((KnownSizeMerger.new (P := ℕ) (1, 1) 2 2 (some ⟨1, 0⟩)).pushList
            [constImg 1 1 7, constImg 1 1 7]).getD
          (KnownSizeMerger.new (P := ℕ) (1, 1) 2 2 (some ⟨1, 0⟩))).remove_image 1).canvas.pix 2 0
        = 7 ∧
      (7 : ℕ) ≠ 0 := by
  decide

/-- C10 counterexample: with non-zero vertical padding the rectangle
written by `remove_image` for an index at or beyond capacity can lie fully
inside the canvas.  A one-column merger of 1×1 cells with two rows and
vertical padding 5 has capacity 2 and a 1×7 canvas; the removal rectangle
of index 2 is the single pixel `(0, 2)`, strictly inside the canvas. -/
theorem C10_beyond_capacity_stays_in_bounds :
    (KnownSizeMerger.new (P := ℕ) (1, 1) 1 2 (some ⟨0, 5⟩)).capacity = 2 ∧
      (KnownSizeMerger.new (P := ℕ) (1, 1) 1 2 (some ⟨0, 5⟩)).removeRegion 2 (0, 2) ∧
      0 < (KnownSizeMerger.new (P := ℕ) (1, 1) 1 2 (some ⟨0, 5⟩)).canvas.width ∧
      2 < (KnownSizeMerger.new (P := ℕ) (1, 1) 1 2 (some ⟨0, 5⟩)).canvas.height := by
  decide

/-- C10 (amended): for a merger whose canvas has the derived dimensions,
every pixel write performed by `remove_image` at an index below capacity is
inside the canvas bounds, with any padding; and when the vertical padding
is zero, every index at or beyond capacity puts the whole removal rectangle
strictly below the canvas (with non-zero padding this fails, see the
counterexample). -/
theorem C10_remove_writes_in_bounds (m : KnownSizeMerger P) (i : ℕ) (q : ℕ × ℕ)
    (hcols : 1 ≤ m.images_per_row)
    (hw : m.canvas.width = m.images_per_row * m.image_dimensions.1 +
      (m.images_per_row - 1) * (m.padding.map Point.x).getD 0)
    (hh : m.canvas.height = m.total_rows * m.image_dimensions.2 +
      (m.total_rows - 1) * (m.padding.map Point.y).getD 0) :
    (i < m.capacity → m.removeRegion i q →
      q.1 < m.canvas.width ∧ q.2 < m.canvas.height) ∧
      ((m.padding.map Point.y).getD 0 = 0 → m.capacity ≤ i → m.removeRegion i q →
        m.canvas.height ≤ q.2) := by
  constructor
  · intro hi hq
    obtain ⟨ha, hb, hc, hd⟩ := hq
    constructor
    · have hxle : i % m.images_per_row ≤ m.images_per_row - 1 := by
        have := Nat.mod_lt i (show 0 < m.images_per_row by omega)
        omega
      have h1 : (i % m.images_per_row) * m.image_dimensions.1 + m.image_dimensions.1 ≤
          m.images_per_row * m.image_dimensions.1 := by
        have h2 : (i % m.images_per_row + 1) * m.image_dimensions.1 ≤
            m.images_per_row * m.image_dimensions.1 :=
          Nat.mul_le_mul_right _ (by omega)
        calc (i % m.images_per_row) * m.image_dimensions.1 + m.image_dimensions.1
            = (i % m.images_per_row + 1) * m.image_dimensions.1 := by ring
          _ ≤ m.images_per_row * m.image_dimensions.1 := h2
      rw [hw]
      omega
    · have hylt : i / m.images_per_row < m.total_rows := by
        rw [Nat.div_lt_iff_lt_mul (show 0 < m.images_per_row by omega)]
        calc i < m.capacity := hi
          _ = m.total_rows * m.images_per_row := Nat.mul_comm _ _
      have h1 : (i / m.images_per_row) * m.image_dimensions.2 + m.image_dimensions.2 ≤
          m.total_rows * m.image_dimensions.2 := by
        have h2 : (i / m.images_per_row + 1) * m.image_dimensions.2 ≤
            m.total_rows * m.image_dimensions.2 :=
          Nat.mul_le_mul_right _ (by omega)
        calc (i / m.images_per_row) * m.image_dimensions.2 + m.image_dimensions.2
            = (i / m.images_per_row + 1) * m.image_dimensions.2 := by ring
          _ ≤ m.total_rows * m.image_dimensions.2 := h2
      rw [hh]
      omega
  · intro hpy hi hq
    obtain ⟨ha, hb, hc, hd⟩ := hq
    have hyge : m.total_rows ≤ i / m.images_per_row := by
      rw [Nat.le_div_iff_mul_le (show 0 < m.images_per_row by omega)]
      calc m.total_rows * m.images_per_row = m.capacity := Nat.mul_comm _ _
        _ ≤ i := hi
    have h1 : m.total_rows * m.image_dimensions.2 ≤
        (i / m.images_per_row) * m.image_dimensions.2 :=
      Nat.mul_le_mul_right _ hyge
    rw [hh, hpy]
    omega

/-- Witness for the amended C10 at a padding-free 1×1 merger: index 0 writes
inside the 1×1 canvas, and index 1 (beyond capacity) writes strictly below
it. -/
theorem C10_remove_writes_in_bounds_witness :
    (((0 : ℕ), (0 : ℕ)).1 < (KnownSizeMerger.new (P := ℕ) (1, 1) 1 1 none).canvas.width ∧
      ((0 : ℕ), (0 : ℕ)).2 < (KnownSizeMerger.new (P := ℕ) (1, 1) 1 1 none).canvas.height) ∧
      (KnownSizeMerger.new (P := ℕ) (1, 1) 1 1 none).canvas.height ≤ ((0 : ℕ), (1 : ℕ)).2 := by
  constructor
  · exact (C10_remove_writes_in_bounds (KnownSizeMerger.new (P := ℕ) (1, 1) 1 1 none)
      0 (0, 0) (by decide) (by decide) (by decide)).1 (by decide) (by decide)
  · exact (C10_remove_writes_in_bounds (KnownSizeMerger.new (P := ℕ) (1, 1) 1 1 none)
      1 (0, 1) (by decide) (by decide) (by decide)).2 (by decide) (by decide) (by decide)

end KnownSizeMerger

/-- The collaborator's raw constructor succeeds exactly on a buffer of the
required flat size. -/
theorem fromRawBuffer_isSome {α : Type} (channels width height : ℕ) (container : List α) :
    (fromRawBuffer channels width height container).isSome = true ↔
      container.length = width * height * channels := by
  unfold fromRawBuffer
  split <;> simp [*]

/-- C8: a caller-supplied raw buffer yields an absent value (`none`) from
`Image::new_from_raw` and `KnownSizeMerger::new_from_raw` exactly when its
length differs from the size required by the requested dimensions (for the
merger: the derived canvas dimensions times the channel count), and `some`
on a buffer of the required size; no panic is involved on this path. -/
theorem C8_new_from_raw_size_check {α : Type} (channels : ℕ) (dims : ℕ × ℕ)
    (cols n width height : ℕ) (pad : Option Padding) (container : List α)
    (hcols : 1 ≤ cols) (hn : 1 ≤ n) :
    ((Image.new_from_raw channels width height container).isSome = true ↔
      container.length = width * height * channels) ∧
      ((KnownSizeMerger.new_from_raw channels dims cols n pad container).isSome = true ↔
        container.length =
          (KnownSizeMerger.new (P := ℕ) dims cols n pad).canvas.width *
            (KnownSizeMerger.new (P := ℕ) dims cols n pad).canvas.height * channels) := by
  constructor
  · exact fromRawBuffer_isSome channels width height container
  · rw [show (KnownSizeMerger.new_from_raw channels dims cols n pad container).isSome =
        (fromRawBuffer channels
          (dims.1 * cols + (cols - 1) * (pad.map Point.x).getD 0)
          (dims.2 * ((n + cols - 1) / cols) +
            (((n + cols - 1) / cols) - 1) * (pad.map Point.y).getD 0) container).isSome
      from by simp [KnownSizeMerger.new_from_raw, Image.new_from_raw]]
    exact fromRawBuffer_isSome _ _ _ container

/-- Witness for C8: with three channels and a single 1×1 cell, a 3-byte
buffer is accepted and a 2-byte buffer is rejected. -/
theorem C8_new_from_raw_size_check_witness :
    (KnownSizeMerger.new_from_raw 3 (1, 1) 1 1 none ([0, 0, 0] : List ℕ)).isSome = true ∧
      (KnownSizeMerger.new_from_raw 3 (1, 1) 1 1 none ([0, 0] : List ℕ)).isSome = false := by
  constructor
  · exact (C8_new_from_raw_size_check 3 (1, 1) 1 1 1 1 none [0, 0, 0]
      (by decide) (by decide)).2.mpr (by decide)
  · have h2 := (C8_new_from_raw_size_check 3 (1, 1) 1 1 1 1 none
      ([0, 0] : List ℕ) (by decide) (by decide)).2
    refine Bool.eq_false_iff.mpr fun hb => ?_
    exact absurd (h2.mp hb) (by decide)

/-! Facts about the binary32 rounding model, leading to the resize claims. -/

/-- The fuel-driven logarithm agrees with `Nat.log2` below `2^fuel`. -/
theorem log2fuel_eq (fuel : ℕ) : ∀ n : ℕ, n < 2 ^ fuel → log2fuel fuel n = Nat.log2 n := by
  induction fuel with
  | zero =>
      intro n h
      have hn : n = 0 := by simpa using h
      subst hn
      simp [log2fuel]
  | succ fuel ih =>
      intro n h
      by_cases h2 : 2 ≤ n
      · have hlt : n / 2 < 2 ^ fuel := by
          have h3 : n < 2 ^ fuel * 2 := by
            rw [← pow_succ]
            exact h
          omega
        rw [show log2fuel (fuel + 1) n = if 2 ≤ n then log2fuel fuel (n / 2) + 1 else 0 from rfl]
        rw [if_pos h2, ih _ hlt]
        conv_rhs => rw [Nat.log2]
        rw [if_pos h2]
      · rw [show log2fuel (fuel + 1) n = if 2 ≤ n then log2fuel fuel (n / 2) + 1 else 0 from rfl]
        rw [if_neg h2]
        conv_rhs => rw [Nat.log2]
        rw [if_neg h2]

/-- With 128 units of fuel the logarithm is exact on the whole range the
resize routine can reach. -/
theorem nlog2_eq (n : ℕ) (h : n < 2 ^ 128) : nlog2 n = Nat.log2 n :=
  log2fuel_eq 128 n h

/-- Correctness of the integer comparison deciding `n/d < 2^e`. -/
theorem ltPow2_iff (n d : ℕ) (hd : 1 ≤ d) (e : ℤ) :
    ltPow2 n d e = true ↔ (n : ℚ) / d < 2 ^ e := by
  have hd0 : (0 : ℚ) < d := by exact_mod_cast hd
  unfold ltPow2
  split
  · next he =>
      simp only [decide_eq_true_eq]
      rw [div_lt_iff hd0]
      have h2 : (2 : ℚ) ^ e = ((2 ^ e.toNat : ℕ) : ℚ) := by
        conv_lhs => rw [← Int.toNat_of_nonneg he]
        rw [zpow_natCast]
        push_cast
        ring
      rw [h2]
      exact_mod_cast Iff.rfl
  · next he =>
      simp only [decide_eq_true_eq]
      have hk : e = -(((-e).toNat : ℕ) : ℤ) := by omega
      have hp2 : (0 : ℚ) < 2 ^ (-e).toNat := by positivity
      have h2 : (2 : ℚ) ^ e = ((2 : ℚ) ^ (-e).toNat)⁻¹ := by
        conv_lhs => rw [hk]
        rw [zpow_neg, zpow_natCast]
      rw [h2, inv_eq_one_div, div_lt_div_iff hd0 hp2, one_mul]
      exact_mod_cast Iff.rfl

/-- The computed exponent brackets the positive rational `n/d` between
consecutive powers of two. -/
theorem qexpN_spec (n d : ℕ) (hn : 1 ≤ n) (hd : 1 ≤ d)
    (hn' : n < 2 ^ 128) (hd' : d < 2 ^ 128) :
    (2 : ℚ) ^ qexpN n d ≤ (n : ℚ) / d ∧ (n : ℚ) / d < 2 ^ (qexpN n d + 1) := by
  have hd0 : (0 : ℚ) < d := by exact_mod_cast hd
  have hna : 2 ^ Nat.log2 n ≤ n := Nat.log2_self_le (by omega)
  have hnb : n < 2 ^ (Nat.log2 n + 1) := Nat.lt_log2_self
  have hda : 2 ^ Nat.log2 d ≤ d := Nat.log2_self_le (by omega)
  have hdb : d < 2 ^ (Nat.log2 d + 1) := Nat.lt_log2_self
  have hnaq : (2 : ℚ) ^ ((Nat.log2 n : ℤ)) ≤ n := by
    rw [zpow_natCast]
    exact_mod_cast hna
  have hnbq : (n : ℚ) < 2 ^ ((Nat.log2 n : ℤ) + 1) := by
    rw [show (Nat.log2 n : ℤ) + 1 = ((Nat.log2 n + 1 : ℕ) : ℤ) by push_cast; ring, zpow_natCast]
    exact_mod_cast hnb
  have hdaq : (2 : ℚ) ^ ((Nat.log2 d : ℤ)) ≤ d := by
    rw [zpow_natCast]
    exact_mod_cast hda
  have hdbq : (d : ℚ) < 2 ^ ((Nat.log2 d : ℤ) + 1) := by
    rw [show (Nat.log2 d : ℤ) + 1 = ((Nat.log2 d + 1 : ℕ) : ℤ) by push_cast; ring, zpow_natCast]
    exact_mod_cast hdb
  have hupper : (n : ℚ) / d < 2 ^ (((Nat.log2 n : ℤ) - Nat.log2 d) + 1) := by
    rw [div_lt_iff hd0]
    calc (n : ℚ) < 2 ^ ((Nat.log2 n : ℤ) + 1) := hnbq
      _ = 2 ^ (((Nat.log2 n : ℤ) - Nat.log2 d) + 1) * 2 ^ ((Nat.log2 d : ℤ)) := by
          rw [← zpow_add₀ (by norm_num : (2 : ℚ) ≠ 0)]
          congr 1
          ring
      _ ≤ 2 ^ (((Nat.log2 n : ℤ) - Nat.log2 d) + 1) * d := by
          exact mul_le_mul_of_nonneg_left hdaq (by positivity)
  have hlower : (2 : ℚ) ^ (((Nat.log2 n : ℤ) - Nat.log2 d) - 1) < (n : ℚ) / d := by
    rw [lt_div_iff hd0]
    calc (2 : ℚ) ^ (((Nat.log2 n : ℤ) - Nat.log2 d) - 1) * d
        < 2 ^ (((Nat.log2 n : ℤ) - Nat.log2 d) - 1) * 2 ^ ((Nat.log2 d : ℤ) + 1) := by
          exact mul_lt_mul_of_pos_left hdbq (by positivity)
      _ = 2 ^ ((Nat.log2 n : ℤ)) := by
          rw [← zpow_add₀ (by norm_num : (2 : ℚ) ≠ 0)]
          congr 1
          ring
      _ ≤ n := hnaq
  have hqe : qexpN n d =
      if ltPow2 n d ((Nat.log2 n : ℤ) - Nat.log2 d) then (Nat.log2 n : ℤ) - Nat.log2 d - 1
      else (Nat.log2 n : ℤ) - Nat.log2 d := by
    unfold qexpN
    rw [nlog2_eq n hn', nlog2_eq d hd']
  rw [hqe]
  by_cases hc : ltPow2 n d ((Nat.log2 n : ℤ) - Nat.log2 d) = true
  · rw [if_pos hc]
    have hlt := (ltPow2_iff n d hd _).mp hc
    refine ⟨le_of_lt hlower, ?_⟩
    rw [show ((Nat.log2 n : ℤ) - Nat.log2 d - 1) + 1 = (Nat.log2 n : ℤ) - Nat.log2 d by ring]
    exact hlt
  · rw [if_neg (by simpa using hc)]
    have hge : ¬((n : ℚ) / d < 2 ^ ((Nat.log2 n : ℤ) - Nat.log2 d)) := fun hlt =>
      hc ((ltPow2_iff n d hd _).mpr hlt)
    exact ⟨not_lt.mp hge, hupper⟩

/-- Round-to-nearest-even division is exact on multiples of the divisor. -/
theorem rdivNe_mul_self (c m : ℕ) (hm : 1 ≤ m) : rdivNe (c * m) m = c := by
  unfold rdivNe
  rw [Nat.mul_div_cancel c (by omega), Nat.mul_mod_left]
  rw [if_pos (by omega : 2 * 0 < m)]

/-- The rounding model is exact on rationals with an integer value of at
most `2^24`: `roundPos (k*m) m = k`. -/
theorem roundPos_intMul (k m : ℕ) (hk : 1 ≤ k) (hk24 : k ≤ 2 ^ 24) (hm : 1 ≤ m)
    (hn' : k * m < 2 ^ 128) (hm' : m < 2 ^ 128) :
    roundPos (k * m) m = (k : ℚ) := by
  have hm0 : (m : ℚ) ≠ 0 := by
    exact_mod_cast Nat.pos_iff_ne_zero.mp (by omega)
  obtain ⟨hle, hlt⟩ := qexpN_spec (k * m) m (Nat.mul_pos (by omega) (by omega)) hm hn' hm'
  have hq : ((k * m : ℕ) : ℚ) / m = (k : ℚ) := by
    push_cast
    field_simp
  rw [hq] at hle hlt
  have he0 : 0 ≤ qexpN (k * m) m := by
    by_contra hneg
    push_neg at hneg
    have h1 : (2 : ℚ) ^ (qexpN (k * m) m + 1) ≤ 2 ^ (0 : ℤ) :=
      zpow_le_zpow_right₀ (by norm_num) (by omega)
    have h2 : (1 : ℚ) ≤ k := by exact_mod_cast hk
    rw [zpow_zero] at h1
    linarith
  have he24 : qexpN (k * m) m ≤ 24 := by
    by_contra hgt
    push_neg at hgt
    have h1 : (2 : ℚ) ^ (25 : ℤ) ≤ 2 ^ qexpN (k * m) m :=
      zpow_le_zpow_right₀ (by norm_num) (by omega)
    have h2 : (k : ℚ) ≤ ((2 ^ 24 : ℕ) : ℚ) := by exact_mod_cast hk24
    have h3 : ((2 ^ 24 : ℕ) : ℚ) = 2 ^ (24 : ℕ) := by push_cast; ring
    have h4 : (2 : ℚ) ^ (25 : ℤ) = 2 ^ (25 : ℕ) := by
      rw [show (25 : ℤ) = ((25 : ℕ) : ℤ) from rfl, zpow_natCast]
    rw [h4] at h1
    rw [h3] at h2
    have := le_trans h1 (le_trans hle h2)
    norm_num at this
  by_cases he23 : qexpN (k * m) m ≤ 23
  · have hs : (0 : ℤ) ≤ 23 - qexpN (k * m) m := by omega
    unfold roundPos
    rw [if_pos hs]
    rw [show k * m * 2 ^ ((23 - qexpN (k * m) m).toNat) =
      (k * 2 ^ ((23 - qexpN (k * m) m).toNat)) * m by ring]
    rw [rdivNe_mul_self _ m hm]
    rw [Rat.mkRat_eq_divInt, Rat.divInt_eq_div]
    push_cast
    rw [mul_div_assoc, div_self (by positivity : ((2 : ℚ) ^ ((23 - qexpN (k * m) m).toNat)) ≠ 0)]
    ring
  · have he24' : qexpN (k * m) m = 24 := by omega
    have hk2 : 2 ^ 24 ≤ k := by
      have h1 : (2 : ℚ) ^ (24 : ℤ) ≤ (k : ℚ) := he24' ▸ hle
      have h2 : (2 : ℚ) ^ (24 : ℤ) = ((2 ^ 24 : ℕ) : ℚ) := by
        rw [show (24 : ℤ) = ((24 : ℕ) : ℤ) from rfl, zpow_natCast]
        push_cast
        ring
      rw [h2] at h1
      exact_mod_cast h1
    have hkval : k = 2 ^ 24 := by omega
    unfold roundPos
    rw [if_neg (by rw [he24']; norm_num)]
    rw [show ((-(23 - qexpN (k * m) m)).toNat) = 1 by rw [he24']; rfl]
    rw [show k * m = 2 ^ 23 * (m * 2 ^ 1) by rw [hkval]; ring]
    rw [rdivNe_mul_self _ _ (by omega)]
    rw [hkval]
    push_cast
    ring

/-- `u32`-to-`f32` conversion is exact below `2^24`. -/
theorem toF32_natCast (k : ℕ) (hk : k ≤ 2 ^ 24) : toF32 k = (k : ℚ) := by
  unfold toF32 roundF32
  by_cases h0 : k = 0
  · subst h0
    simp
  · rw [if_neg (not_le.mpr (by exact_mod_cast Nat.pos_of_ne_zero h0 : (0 : ℚ) < k))]
    rw [Rat.num_natCast, Rat.den_natCast, Int.toNat_natCast]
    have h := roundPos_intMul k 1 (by omega) hk (by omega)
      (by rw [Nat.mul_one]; omega) (by norm_num)
    rw [Nat.mul_one] at h
    exact h

/-- An `f32`-represented integer divided by itself gives exactly one. -/
theorem divF32_natCast_self (v : ℕ) (hv : 1 ≤ v) (hv24 : v ≤ 2 ^ 24) :
    divF32 (v : ℚ) (v : ℚ) = 1 := by
  have hpos : (0 : ℚ) < v := by exact_mod_cast (by omega : 0 < v)
  unfold divF32
  rw [if_neg (not_or.mpr ⟨not_le.mpr hpos, not_le.mpr hpos⟩)]
  rw [Rat.num_natCast, Rat.den_natCast, Int.toNat_natCast, Nat.mul_one, Nat.one_mul]
  have h := roundPos_intMul 1 v (le_refl 1) (by norm_num) hv
    (by rw [Nat.one_mul]; omega) (by omega)
  rw [Nat.one_mul] at h
  rw [h]
  norm_num

/-- `f32` multiplication of integers is exact below `2^24`. -/
theorem mulF32_natCast (a b : ℕ) (ha : 1 ≤ a) (hb : 1 ≤ b) (hab : a * b ≤ 2 ^ 24) :
    mulF32 (a : ℚ) (b : ℚ) = ((a * b : ℕ) : ℚ) := by
  have hpa : (0 : ℚ) < a := by exact_mod_cast (by omega : 0 < a)
  have hpb : (0 : ℚ) < b := by exact_mod_cast (by omega : 0 < b)
  unfold mulF32
  rw [if_neg (not_or.mpr ⟨not_le.mpr hpa, not_le.mpr hpb⟩)]
  rw [Rat.num_natCast, Rat.den_natCast, Rat.num_natCast, Rat.den_natCast,
    Int.toNat_natCast, Int.toNat_natCast, Nat.one_mul]
  have h := roundPos_intMul (a * b) 1 (Nat.mul_pos (by omega) (by omega)) hab (by omega)
    (by rw [Nat.mul_one]; omega) (by norm_num)
  rw [Nat.mul_one] at h
  exact h

/-- Truncating an `f32`-represented natural below `2^24` to `u32` is the
identity. -/
theorem truncU32_natCast (k : ℕ) (hk : k ≤ 2 ^ 24) : truncU32 (k : ℚ) = k := by
  unfold truncU32
  rw [Rat.num_natCast, Rat.den_natCast, Int.toNat_natCast, Nat.div_one]
  omega

/-- The per-axis coordinate mapping of the resize routine is the identity
when the target equals the source extent, for extents up to `2^24 + 1`. -/
theorem resize_axis_identity (s t : ℕ) (ht : t < s) (hs : s ≤ 2 ^ 24 + 1) :
    truncU32 (mulF32 (toF32 t) (divF32 (toF32 s) (toF32 s))) = t := by
  have hs1 : 1 ≤ s := by omega
  obtain ⟨v, hveq, hv1, hv24⟩ : ∃ v : ℕ, toF32 s = (v : ℚ) ∧ 1 ≤ v ∧ v ≤ 2 ^ 24 := by
    by_cases hcase : s ≤ 2 ^ 24
    · exact ⟨s, toF32_natCast s hcase, hs1, hcase⟩
    · have hseq : s = 2 ^ 24 + 1 := by omega
      refine ⟨2 ^ 24, ?_, by norm_num, le_refl _⟩
      rw [hseq]
      decide
  rw [hveq, divF32_natCast_self v hv1 hv24]
  by_cases ht0 : t = 0
  · subst ht0
    decide
  · have ht24 : t ≤ 2 ^ 24 := by omega
    rw [toF32_natCast t ht24]
    rw [show (1 : ℚ) = ((1 : ℕ) : ℚ) by norm_num]
    rw [mulF32_natCast t 1 (by omega) (by norm_num) (by rw [Nat.mul_one]; omega)]
    rw [Nat.mul_one]
    exact truncU32_natCast t ht24

/-- C7 (amended): resizing to the source's own dimensions reproduces the
source pixel-for-pixel whenever both dimensions are at most `2^24 + 1`
(so that every pixel coordinate survives the `f32` round trip; the
counterexample shows the first failing width, `2^24 + 2`). -/
theorem C7_resize_identity (img : Img P)
    (hbw : img.width ≤ 2 ^ 24 + 1) (hbh : img.height ≤ 2 ^ 24 + 1) :
    Img.pixEq (resize_nearest_neighbor img img.width img.height) img := by
  refine ⟨rfl, rfl, ?_⟩
  intro x y hx hy
  have hx' : x < img.width := hx
  have hy' : y < img.height := hy
  show img.pix (truncU32 (mulF32 (toF32 x) (divF32 (toF32 img.width) (toF32 img.width))))
      (truncU32 (mulF32 (toF32 y) (divF32 (toF32 img.height) (toF32 img.height)))) = img.pix x y
  rw [resize_axis_identity img.width x hx' hbw, resize_axis_identity img.height y hy' hbh]

/-- Witness for C7 at a 3×2 source: the identity resize reproduces the
pixel at `(2, 1)`. -/
theorem C7_resize_identity_witness :
    (coordImg 3 2).width ≤ 2 ^ 24 + 1 ∧
      (resize_nearest_neighbor (coordImg 3 2) (coordImg 3 2).width
          (coordImg 3 2).height).pix 2 1 = (coordImg 3 2).pix 2 1 :=
  ⟨by decide, (C7_resize_identity (coordImg 3 2) (by decide) (by decide)).2.2 2 1
    (by decide) (by decide)⟩

/-- C7 counterexample: as stated over every source image the identity claim
is false.  For the 16777218×1 image whose pixel at `(x, y)` is `x`, the
identity resize maps destination column `2^24 + 1` to source column `2^24`
(the `f32` conversion of `2^24 + 1` rounds to even), so the output differs
from the source there. -/
theorem C7_resize_identity_fails :
    ¬Img.pixEq (resize_nearest_neighbor (coordImg (2 ^ 24 + 2) 1)
        (coordImg (2 ^ 24 + 2) 1).width (coordImg (2 ^ 24 + 2) 1).height)
      (coordImg (2 ^ 24 + 2) 1) := by
  intro h
  have hx := h.2.2 (2 ^ 24 + 1) 0 (by decide) (by decide)
  exact absurd hx (by decide)

/-- The per-axis coordinate mapping of the resize routine agrees with the
exact floor formula when the scale factor is an integer and the source
extent is at most `2^24` (all intermediate `f32` values are then exact). -/
theorem resize_axis_integer_ratio (s t kk d : ℕ) (hd1 : 1 ≤ d) (hk1 : 1 ≤ kk)
    (hs : s = kk * d) (hs24 : s ≤ 2 ^ 24) (htd : t < d) :
    truncU32 (mulF32 (toF32 t) (divF32 (toF32 s) (toF32 d))) = t * s / d := by
  have hd24 : d ≤ 2 ^ 24 := by
    calc d = 1 * d := (Nat.one_mul d).symm
      _ ≤ kk * d := Nat.mul_le_mul_right d hk1
      _ = s := hs.symm
      _ ≤ 2 ^ 24 := hs24
  have hk24 : kk ≤ 2 ^ 24 := by
    calc kk = kk * 1 := (Nat.mul_one kk).symm
      _ ≤ kk * d := Nat.mul_le_mul_left kk hd1
      _ = s := hs.symm
      _ ≤ 2 ^ 24 := hs24
  have hs1 : 1 ≤ s := by
    rw [hs]
    exact Nat.mul_pos (by omega) (by omega)
  have hps : (0 : ℚ) < s := by exact_mod_cast (by omega : 0 < s)
  have hpd : (0 : ℚ) < d := by exact_mod_cast (by omega : 0 < d)
  have hratio : divF32 (toF32 s) (toF32 d) = (kk : ℚ) := by
    rw [toF32_natCast s hs24, toF32_natCast d hd24]
    unfold divF32
    rw [if_neg (not_or.mpr ⟨not_le.mpr hps, not_le.mpr hpd⟩)]
    rw [Rat.num_natCast, Rat.den_natCast, Rat.num_natCast, Rat.den_natCast,
      Int.toNat_natCast, Int.toNat_natCast, Nat.mul_one, Nat.one_mul, hs]
    exact roundPos_intMul kk d hk1 hk24 hd1 (by rw [← hs]; omega) (by omega)
  rw [hratio]
  by_cases ht0 : t = 0
  · subst ht0
    rw [show toF32 0 = ((0 : ℕ) : ℚ) from toF32_natCast 0 (by norm_num)]
    unfold mulF32
    rw [if_pos (Or.inl (by norm_num))]
    simp [truncU32]
  · have htk : t * kk ≤ 2 ^ 24 := by
      have h1 : t * kk < d * kk := (Nat.mul_lt_mul_right (by omega)).mpr htd
      have h2 : d * kk = s := by rw [hs]; ring
      omega
    rw [toF32_natCast t (by omega)]
    rw [mulF32_natCast t kk (by omega) hk1 htk]
    rw [truncU32_natCast _ htk]
    rw [hs, show t * (kk * d) = t * kk * d by ring, Nat.mul_div_cancel _ (by omega)]

/-- C6 (amended): the output of `resize_nearest_neighbor` always has the
requested dimensions, and the floor-ratio pixel formula of the claim holds
at least for integer per-axis scale factors with source dimensions at most
`2^24` (the `f32` index arithmetic is then exact; in general single
precision can pick a neighbouring source pixel, see the counterexample). -/
theorem C6_resize_integer_ratio (img : Img P) (w h kw kh : ℕ)
    (hw : 1 ≤ w) (hh : 1 ≤ h) (hkw : 1 ≤ kw) (hkh : 1 ≤ kh)
    (hsw : img.width = kw * w) (hsh : img.height = kh * h)
    (hsw24 : img.width ≤ 2 ^ 24) (hsh24 : img.height ≤ 2 ^ 24) :
    (resize_nearest_neighbor img w h).width = w ∧
      (resize_nearest_neighbor img w h).height = h ∧
      ∀ i j, i < w → j < h →
        (resize_nearest_neighbor img w h).pix i j =
          img.pix (i * img.width / w) (j * img.height / h) := by
  refine ⟨rfl, rfl, ?_⟩
  intro i j hi hj
  have h1 := resize_axis_integer_ratio img.width i kw w hw hkw hsw hsw24 hi
  have h2 := resize_axis_integer_ratio img.height j kh h hh hkh hsh hsh24 hj
  show img.pix (truncU32 (mulF32 (toF32 i) (divF32 (toF32 img.width) (toF32 w))))
      (truncU32 (mulF32 (toF32 j) (divF32 (toF32 img.height) (toF32 h)))) =
    img.pix (i * img.width / w) (j * img.height / h)
  rw [h1, h2]

/-- Witness for the amended C6: halving a 4×2 image, output pixel `(1, 0)`
is source pixel `(2, 0)`, the floor-ratio mapping. -/
theorem C6_resize_integer_ratio_witness :
    (resize_nearest_neighbor (coordImg 4 2) 2 1).width = 2 ∧
      (resize_nearest_neighbor (coordImg 4 2) 2 1).pix 1 0 =
        (coordImg 4 2).pix (1 * (coordImg 4 2).width / 2) (0 * (coordImg 4 2).height / 1) := by
  have h := C6_resize_integer_ratio (coordImg 4 2) 2 1 2 2 (by decide) (by decide)
    (by decide) (by decide) (by decide) (by decide) (by decide) (by decide)
  exact ⟨h.1, h.2.2 1 0 (by decide) (by decide)⟩

/-- C6 counterexample: the floor-ratio formula fails on the code.  Resizing
a 62×1 image (pixel at `(x, y)` is `x`) to 14×1, the output pixel at
`(7, 0)` is source pixel 30, while `floor(7 * 62 / 14) = 31`: the `f32`
ratio `62/14` rounds below `31/7`, so the product `7 * ratio` lands just
under 31 and truncates to 30. -/
theorem C6_resize_floor_formula_fails :
    (resize_nearest_neighbor (coordImg 62 1) 14 1).pix 7 0 ≠
      (coordImg 62 1).pix (7 * (coordImg 62 1).width / 14)
        (0 * (coordImg 62 1).height / 1) := by
  decide

end ImageMerger

